import Mathlib

/-!
# sycl-gtx: kernel source builder, resource registry and kernel naming

A shallow embedding of

* `sycl-gtx/implementation/specification/accessors.h` (access modes and targets),
* `sycl-gtx/implementation/src_handlers/kernel_source.h` (`detail::kernel_::source`),
* `sycl-gtx/implementation/kernel_name.h` (`detail::kernel_name`),
* `sycl-gtx/implementation/specification/buffer.h` (`detail::buffer_::get_count`),
* `sycl-gtx/implementation/data_ref.cpp` (`data_ref::kernel_add`),

followed by the properties proved about them.

Conventions: `string_class` is `String`, `vector_class<string_class>` is `List String`
(`push_back` appends at the end), a pointer is a natural-number address, `nullptr` is `none`,
and an operation whose C++ behaviour is undefined (dereferencing a null `scope`, `pop_back` on an
empty string) returns `none`. Callers of `kernel_name::get` on several threads are modelled as an
interleaving of their accesses to the statics, one access per step.
-/

namespace sycl_gtx

/-! ## Definitions -/

namespace access

/-- Access modes, `enum mode` of accessors.h (3.3.4.1). -/
inductive mode where
  | read
  | write
  | atomic
  | read_write
  | discard_read_write
  deriving DecidableEq, Repr, Inhabited

/-- Access targets, `enum target` of accessors.h (3.3.4.2); `local` is a Lean keyword, hence
`local_`. -/
inductive target where
  | global_buffer
  | constant_buffer
  | local_
  | image
  | host_buffer
  | host_image
  | image_array
  | cl_buffer
  | cl_image
  deriving DecidableEq, Repr, Inhabited

end access

/-- An address: the value of a `void*`, a `buffer*` or a `source*`. -/
abbrev ptr := Nat

/-- The aggregate `{ buf, mode, target }` stored first in a `buf_info` (the struct
`buffer_access` is declared in accessor/buffer.h; its three members are read off the
initializer in `register_resource`). -/
structure buffer_access where
  data : ptr
  mode : access.mode
  target : access.target
  deriving DecidableEq, Repr, Inhabited

/-- The entry type `source::buf_info`. -/
structure buf_info where
  acc : buffer_access
  resource_name : String
  type_name : String
  size : Nat
  deriving DecidableEq, Repr, Inhabited

/-- What `register_resource` reads from its argument
`accessor_core<DataType, dimensions, mode, target>`: the buffer pointer `acc.resource()`, the
template arguments `mode` and `target`, the text `detail::type_string<DataType>::get()` and
`acc.argument_size()`. -/
structure accessor_core where
  resource : ptr
  mode : access.mode
  target : access.target
  type_string : String
  argument_size : Nat
  deriving DecidableEq, Repr, Inhabited

/-- The container `std::unordered_map<void*, buf_info>`, as an association list holding each key
at most once as long as it is only changed through `umap_assign`. -/
abbrev umap := List (ptr × buf_info)

/-- The lookup `resources.find(buf)`: `none` stands for `resources.end()`. -/
def umap_find : umap → ptr → Option buf_info
  | [], _ => none
  | (k, v) :: m, buf => if k = buf then some v else umap_find m buf

/-- The assignment `resources[buf] = v`: overwrites the entry of `buf`, or adds one. -/
def umap_assign : umap → ptr → buf_info → umap
  | [], buf, v => [(buf, v)]
  | (k, w) :: m, buf, v => if k = buf then (buf, v) :: m else (k, w) :: umap_assign m buf v

/-- The member `size()` of the map: the number of registry entries. -/
def umap_size (m : umap) : Nat := m.length

/-- The non-static data members of `class source`. -/
structure source where
  tab_offset : String
  kernel_name : String
  lines : List String
  resources : umap
  deriving Repr, Inhabited

/-- The thread-local statics of `class source` (`num_resources`, `scope`) together with the
`source` objects the thread can reach, by address. -/
structure thread_state where
  num_resources : Int
  scope : Option ptr
  heap : ptr → source

/-- The value of a 32-bit `int` after an arithmetic step whose exact result is `z`: overflow of
`++num_resources` is undefined in C++, and the model takes the two's-complement result. -/
def wrap_int (z : Int) : Int := (z + 2 ^ 31) % 2 ^ 32 - 2 ^ 31

/-- The decimal text `std::to_string(n)` of an `int`. -/
def to_string (n : Int) : String := toString n

/-- The constructor `source::source()` (a Lean structure cannot hold a function of its own
name, hence `ctor`). The value `count_id` is what `get_count_id()` of the base
class `counter<source>` (counter.h) returns for the object under construction. -/
def source.ctor (count_id : Nat) : source :=
  { tab_offset := "\t"
    kernel_name := "_sycl_kernel_" ++ to_string count_id
    lines := []
    resources := [] }

/-- Modelled from the spec: `source::in_scope()`, declared in kernel_source.h and defined outside
it; "true iff a Builder is currently the active scope on the calling thread". -/
def source.in_scope (st : thread_state) : Bool := st.scope.isSome

/-- Modelled from the spec: `source::get_kernel_name()`, declared in kernel_source.h and defined
outside it; it "returns the stable name derived from the Kernel Identity". It is a `const` member
function with no argument, so the name is the one the object holds, the member `kernel_name`;
the constructor derives that member from the id it reads, and `source.for_shape` below makes
that id the Kernel Identity of the shape the Builder is constructed for. -/
def source.get_kernel_name (s : source) : String := s.kernel_name

/-- The function `source::register_resource(acc)`, returning the resource name and the new state.
The constant `resource_name_root` is defined outside kernel_source.h and is a parameter here. -/
def source.register_resource (resource_name_root : String) (acc : accessor_core)
    (st : thread_state) : String × thread_state :=
  match st.scope with
  | none => ("", st)
  | some p =>
    let s := st.heap p
    let buf := acc.resource
    match umap_find s.resources buf with
    | none =>
      let n := wrap_int (st.num_resources + 1)
      let resource_name := resource_name_root ++ to_string n
      let info : buf_info :=
        { acc := { data := buf, mode := acc.mode, target := acc.target }
          resource_name := resource_name
          type_name := acc.type_string.push '*'
          size := acc.argument_size }
      (resource_name,
        { st with
          num_resources := n
          heap := Function.update st.heap p
            { s with resources := umap_assign s.resources buf info } })
    | some info => (info.resource_name, st)

/-- The function `source::add<auto_end>(line)`; `none` when `scope` is null, which the C++
dereferences without a check. -/
def source.add (auto_end : Bool) (line : String) (st : thread_state) : Option thread_state :=
  match st.scope with
  | none => none
  | some p =>
    let s := st.heap p
    let text := (s.tab_offset ++ line).push (if auto_end then ';' else ' ')
    some { st with heap := Function.update st.heap p { s with lines := s.lines ++ [text] } }

/-- The function `data_ref::kernel_add(line)` of data_ref.cpp: `source::add(line)` with the
default `auto_end = true`. -/
def data_ref.kernel_add (line : String) (st : thread_state) : Option thread_state :=
  source.add true line st

/-- The call `scope->tab_offset.push_back(c)`. -/
def tab_push_back (c : Char) (st : thread_state) : Option thread_state :=
  match st.scope with
  | none => none
  | some p =>
    let s := st.heap p
    some { st with heap := Function.update st.heap p { s with tab_offset := s.tab_offset.push c } }

/-- The call `scope->tab_offset.pop_back()`; `none` when `scope` is null or the string is empty
(undefined behaviour of `std::string::pop_back`). -/
def tab_pop_back (st : thread_state) : Option thread_state :=
  match st.scope with
  | none => none
  | some p =>
    let s := st.heap p
    if s.tab_offset.data = [] then none
    else
      some { st with
        heap := Function.update st.heap p { s with tab_offset := ⟨s.tab_offset.data.dropLast⟩ } }

/-- The function `source::add_curlies()`; the line added is the opening brace (code 0x7b). -/
def source.add_curlies (st : thread_state) : Option thread_state :=
  (source.add false "\x7b" st).bind (tab_push_back '\t')

/-- The function `source::remove_curlies()`; the line added is the closing brace (code 0x7d). -/
def source.remove_curlies (st : thread_state) : Option thread_state :=
  (tab_pop_back st).bind (source.add false "\x7d")

/-- One call of the block interface of `source`. -/
inductive block_op where
  | add_curlies
  | remove_curlies
  | add (auto_end : Bool) (line : String)
  deriving DecidableEq, Repr, Inhabited

/-- Performs one call. -/
def block_op.run : block_op → thread_state → Option thread_state
  | .add_curlies, st => source.add_curlies st
  | .remove_curlies, st => source.remove_curlies st
  | .add auto_end line, st => source.add auto_end line st

/-- Performs the calls of a list one after the other, stopping at the first that fails. -/
def run_ops : List block_op → thread_state → Option thread_state
  | [], st => some st
  | op :: ops, st => (op.run st).bind (run_ops ops)

/-- The number of `add_curlies` calls in a list. -/
def opens (ops : List block_op) : Nat := ops.count block_op.add_curlies

/-- The number of `remove_curlies` calls in a list. -/
def closes (ops : List block_op) : Nat := ops.count block_op.remove_curlies

/-- A balanced sequence: every leading part has at least as many opens as closes, and the whole
has as many opens as closes. -/
def balanced (ops : List block_op) : Prop :=
  (∀ n, n ≤ ops.length → closes (ops.take n) ≤ opens (ops.take n)) ∧ opens ops = closes ops

instance (ops : List block_op) : Decidable (balanced ops) := by
  unfold balanced; infer_instance

/-- Performs `register_resource` for each accessor of a list in turn; the returned names are
dropped. -/
def run_registers (root : String) : List accessor_core → thread_state → thread_state
  | [], st => st
  | acc :: accs, st => run_registers root accs (source.register_resource root acc st).2

/-- The static data of `class kernel_name` over the kernel types `K` of the program:
`current_count`, and `namer<T>::id` and `namer<T>::is_set` for every `T`. -/
structure kernel_name (K : Type) where
  current_count : Nat
  id : K → Nat
  is_set : K → Bool

/-- The static initialisers at the end of kernel_name.h: `current_count = 0`, and `id = 0`,
`is_set = false` for every `T`. -/
def kernel_name.init (K : Type) : kernel_name K :=
  { current_count := 0, id := fun _ => 0, is_set := fun _ => false }

/-- The function `kernel_name::namer<T>::set()`; `current_count++` on a `size_t` wraps at
`2 ^ 64`. -/
def kernel_name.namer_set {K : Type} [DecidableEq K] (T : K) (s : kernel_name K) :
    kernel_name K :=
  if s.is_set T then s
  else
    { current_count := (s.current_count + 1) % 2 ^ 64
      id := Function.update s.id T s.current_count
      is_set := Function.update s.is_set T true }

/-- The function `kernel_name::get<T>()`, returning the identity and the new statics. -/
def kernel_name.get {K : Type} [DecidableEq K] (T : K) (s : kernel_name K) :
    Nat × kernel_name K :=
  ((kernel_name.namer_set T s).id T, kernel_name.namer_set T s)

/-- Performs `get<T>()` for each key of a list in turn; the returned identities are dropped. -/
def kernel_name.run_gets {K : Type} [DecidableEq K] : List K → kernel_name K → kernel_name K
  | [], s => s
  | T :: Ts, s => kernel_name.run_gets Ts (kernel_name.get T s).2

/-- Modelled from the spec: the construction of a Builder for the kernel shape `T`. The code that
constructs a `source` for a kernel, and counter.h with the `get_count_id()` the constructor
reads, are outside kernel_source.h. In the spec the kernel name is "derived from the Kernel
Identity", a "stable non-negative integer, assigned once per distinct kernel shape", and "many
Builder instances (one per invocation) may share one Kernel Identity when they represent the
same kernel shape": the id the constructor reads is the identity that `kernel_name::get<T>()`
returns for the shape. The result is the new Builder and the statics after the `get`. -/
def source.for_shape {K : Type} [DecidableEq K] (T : K) (statics : sycl_gtx.kernel_name K) :
    source × sycl_gtx.kernel_name K :=
  (source.ctor (sycl_gtx.kernel_name.get T statics).1, (sycl_gtx.kernel_name.get T statics).2)

/-- The data member `rang` of `buffer_<DataType, dimensions>`, the only one `get_count` reads,
with `rang[i]` as `rang i`, and `sizeof(DataType)`. -/
structure buffer_ (dimensions : Nat) where
  rang : Fin dimensions → Nat
  sizeof_DataType : Nat

/-- The function `buffer_::get_count()`: the loop over `i = 0 .. dimensions - 1` with
`count += rang[i]` on a `size_t`. -/
def buffer_.get_count {dimensions : Nat} (b : buffer_ dimensions) : Nat :=
  (List.finRange dimensions).foldl (fun count i => (count + b.rang i) % 2 ^ 64) 0

/-- The function `buffer_::get_size()`. -/
def buffer_.get_size {dimensions : Nat} (b : buffer_ dimensions) : Nat :=
  (b.get_count * b.sizeof_DataType) % 2 ^ 64

/-- The total number of elements of a buffer in the words of C10: the product of the
per-dimension element counts of its range. -/
def buffer_.element_count {dimensions : Nat} (b : buffer_ dimensions) : Nat :=
  ((List.finRange dimensions).map b.rang).prod

/-- Reads one more decimal digit: the step of the left-to-right decoding of a numeral. -/
def dec_step (value : Nat) (c : Char) : Nat := value * 10 + (c.toNat - 48)

/-- The names of the registry of `p` all have the form root + decimal text of a number that is
at most the counter. -/
def names_bounded (root : String) (st : thread_state) (p : ptr) : Prop :=
  ∀ b info, umap_find (st.heap p).resources b = some info →
    ∃ n : Int, n ≤ st.num_resources ∧ info.resource_name = root ++ to_string n

/-- Distinct buffers of the registry of `p` have distinct resource names. -/
def names_distinct (st : thread_state) (p : ptr) : Prop :=
  ∀ b1 b2 i1 i2, umap_find (st.heap p).resources b1 = some i1 →
    umap_find (st.heap p).resources b2 = some i2 → b1 ≠ b2 →
    i1.resource_name ≠ i2.resource_name

/-- The nesting depth in front of position `n` of a call sequence: the blocks opened and not yet
closed by the first `n` calls. -/
def depth (ops : List block_op) (n : Nat) : Nat := opens (ops.take n) - closes (ops.take n)

/-- The `remove_curlies` at position `j` matches the `add_curlies` at position `i`: it is the
first call after `i` that brings the depth back to what it was in front of `i`. -/
def matching (ops : List block_op) (i j : Nat) : Prop :=
  i < j ∧ ops[i]? = some block_op.add_curlies ∧ ops[j]? = some block_op.remove_curlies ∧
    depth ops (j + 1) = depth ops i ∧ ∀ m, m ≤ j → i < m → depth ops i < depth ops m

instance (ops : List block_op) (i j : Nat) : Decidable (matching ops i j) := by
  unfold matching; infer_instance

/-- Position `m` lies directly between the matching pair at `i` and `j`: inside the block and in
no deeper one. -/
def directly_between (ops : List block_op) (i j m : Nat) : Prop :=
  i < m ∧ m < j ∧ depth ops m = depth ops i + 1

instance (ops : List block_op) (i j m : Nat) : Decidable (directly_between ops i j m) := by
  unfold directly_between; infer_instance

/-- An indentation of `k` tabs. -/
def tabs (k : Nat) : String := ⟨List.replicate k '\t'⟩

/-- The line a call pushes onto `lines` when the characters of `tab_offset` in front of the call
are `tab`: `add_curlies` and `add` use `tab`, `remove_curlies` uses it after its `pop_back`. -/
def emitted : block_op → List Char → String
  | .add_curlies, tab => ((⟨tab⟩ : String) ++ "\x7b").push ' '
  | .remove_curlies, tab => ((⟨tab.dropLast⟩ : String) ++ "\x7d").push ' '
  | .add auto_end line, tab => ((⟨tab⟩ : String) ++ line).push (if auto_end then ';' else ' ')

/-- Where one caller of `kernel_name::get<T>()` stands. The call is cut into its accesses to the
statics, one per step: the test `if(!is_set)`, the read and the write of `current_count++`, the
write `id = ...`, the write `is_set = true`, and the read of `id` for `return namer<T>::id`. The
value read from `current_count` is carried until it is stored. -/
inductive get_pc where
  | test_is_set
  | read_count
  | write_count (old : Nat)
  | write_id (old : Nat)
  | write_is_set
  | read_id
  | returned (result : Nat)
  deriving DecidableEq, Repr, Inhabited

/-- One step of a caller of `get<T>()` on the statics. kernel_name.h takes no lock and uses no
atomic, so nothing keeps other callers from stepping in between. -/
def get_step {K : Type} [DecidableEq K] (T : K) : get_pc → kernel_name K → get_pc × kernel_name K
  | .test_is_set, s => (if s.is_set T then .read_id else .read_count, s)
  | .read_count, s => (.write_count s.current_count, s)
  | .write_count old, s => (.write_id old, { s with current_count := (old + 1) % 2 ^ 64 })
  | .write_id old, s => (.write_is_set, { s with id := Function.update s.id T old })
  | .write_is_set, s => (.read_id, { s with is_set := Function.update s.is_set T true })
  | .read_id, s => (.returned (s.id T), s)
  | .returned result, s => (.returned result, s)

/-- The statics together with the callers of `get<T>()` that are under way, one per thread. -/
structure get_system (K : Type) where
  shared : kernel_name K
  callers : List get_pc

/-- Caller `i` takes its next step; nothing happens when there is no caller `i`. -/
def system_step {K : Type} [DecidableEq K] (T : K) (i : Nat) (sys : get_system K) :
    get_system K :=
  match sys.callers[i]? with
  | none => sys
  | some pc =>
    { shared := (get_step T pc sys.shared).2
      callers := sys.callers.set i (get_step T pc sys.shared).1 }

/-- An interleaving is the list of the callers in the order in which they step. -/
def run_schedule {K : Type} [DecidableEq K] (T : K) : List Nat → get_system K → get_system K
  | [], sys => sys
  | i :: sched, sys => run_schedule T sched (system_step T i sys)

/-- The system in which, of `n + 1` callers of `get<T>()` on the statics `s`, caller 0 has made
its six steps alone and the others have not yet started; the interleaving `sched` of all callers
follows. -/
def after_first_call {K : Type} [DecidableEq K] (T : K) (s : kernel_name K) (n : Nat)
    (sched : List Nat) : get_system K :=
  run_schedule T sched
    (run_schedule T (List.replicate 6 0) ⟨s, List.replicate (n + 1) get_pc.test_is_set⟩)

/-- The identity of `T` is assigned as `v` and every caller is at a point from which it can only
read it: in front of the test, in front of the final read, or returned with `v`. -/
def settled {K : Type} (T : K) (v : Nat) (sys : get_system K) : Prop :=
  sys.shared.is_set T = true ∧ sys.shared.id T = v ∧
    ∀ pc ∈ sys.callers,
      pc = get_pc.test_is_set ∨ pc = get_pc.read_id ∨ pc = get_pc.returned v

/-! ## Properties -/

/-! ### Decimal text -/

theorem digitChar_decode (d : Nat) (h : d < 10) : (Nat.digitChar d).toNat - 48 = d := by
  interval_cases d <;> rfl

theorem digitChar_ne_minus (d : Nat) (h : d < 10) : Nat.digitChar d ≠ '-' := by
  interval_cases d <;> decide

theorem toDigitsCore_decode (fuel : Nat) :
    ∀ (n : Nat) (ds : List Char), n < fuel →
      List.foldl dec_step 0 (Nat.toDigitsCore 10 fuel n ds) = List.foldl dec_step n ds := by
  induction fuel with
  | zero => intro n ds h; omega
  | succ fuel ih =>
    intro n ds h
    have hd : dec_step (n / 10) (Nat.digitChar (n % 10)) = n := by
      unfold dec_step
      rw [digitChar_decode _ (Nat.mod_lt _ (by norm_num))]
      omega
    by_cases h0 : n / 10 = 0
    · have hn : n % 10 = n := by omega
      simp only [Nat.toDigitsCore, h0, if_true, List.foldl_cons]
      rw [← h0, hd]
    · simp only [Nat.toDigitsCore, h0, if_false]
      rw [ih (n / 10) _ (by omega), List.foldl_cons, hd]

theorem toDigitsCore_no_minus (fuel : Nat) :
    ∀ (n : Nat) (ds : List Char), (∀ c ∈ ds, c ≠ '-') →
      ∀ c ∈ Nat.toDigitsCore 10 fuel n ds, c ≠ '-' := by
  induction fuel with
  | zero => intro n ds h; simpa [Nat.toDigitsCore] using h
  | succ fuel ih =>
    intro n ds h
    have hds : ∀ c ∈ Nat.digitChar (n % 10) :: ds, c ≠ '-' := by
      intro c hc
      rcases List.mem_cons.mp hc with rfl | hc
      · exact digitChar_ne_minus _ (Nat.mod_lt _ (by norm_num))
      · exact h c hc
    by_cases h0 : n / 10 = 0
    · simpa only [Nat.toDigitsCore, h0, if_true] using hds
    · simp only [Nat.toDigitsCore, h0, if_false]
      exact ih _ _ hds

theorem repr_decode (n : Nat) : List.foldl dec_step 0 (Nat.repr n).data = n := by
  simp only [Nat.repr, Nat.toDigits, List.asString]
  rw [toDigitsCore_decode (n + 1) n [] (by omega)]
  rfl

theorem repr_no_minus (n : Nat) : ∀ c ∈ (Nat.repr n).data, c ≠ '-' := by
  simp only [Nat.repr, Nat.toDigits, List.asString]
  exact toDigitsCore_no_minus (n + 1) n [] (by simp)

theorem repr_injective (a b : Nat) (h : Nat.repr a = Nat.repr b) : a = b := by
  rw [← repr_decode a, ← repr_decode b, h]

/-- The decimal text of an `int` determines it. -/
theorem to_string_injective (a b : Int) (h : to_string a = to_string b) : a = b := by
  unfold to_string at h
  cases a with
  | ofNat a =>
    cases b with
    | ofNat b =>
      exact congrArg Int.ofNat (repr_injective a b h)
    | negSucc b =>
      exfalso
      have hm := repr_no_minus a '-'
      have hd : (Nat.repr a).data = '-' :: (Nat.repr (b + 1)).data := congrArg String.data h
      rw [hd] at hm
      exact hm (List.mem_cons_self _ _) rfl
  | negSucc a =>
    cases b with
    | ofNat b =>
      exfalso
      have hm := repr_no_minus b '-'
      have hd : '-' :: (Nat.repr (a + 1)).data = (Nat.repr b).data := congrArg String.data h
      rw [← hd] at hm
      exact hm (List.mem_cons_self _ _) rfl
    | negSucc b =>
      have hd : '-' :: (Nat.repr (a + 1)).data = '-' :: (Nat.repr (b + 1)).data :=
        congrArg String.data h
      have h1 : Nat.repr (a + 1) = Nat.repr (b + 1) := String.ext (List.cons.inj hd).2
      have := repr_injective _ _ h1
      congr 1
      omega

theorem name_injective (root : String) (a b : Int)
    (h : root ++ to_string a = root ++ to_string b) : a = b := by
  apply to_string_injective
  apply String.ext
  have hd := congrArg String.data h
  simp only [String.data_append] at hd
  exact List.append_cancel_left hd

theorem wrap_int_of_range (z : Int) (hlo : -2 ^ 31 ≤ z) (hhi : z < 2 ^ 31) : wrap_int z = z := by
  unfold wrap_int
  omega

/-! ### The registry container -/

theorem umap_find_assign (m : umap) (buf k : ptr) (v : buf_info) :
    umap_find (umap_assign m buf v) k = if buf = k then some v else umap_find m k := by
  induction m with
  | nil => simp [umap_assign, umap_find]
  | cons e m ih =>
    obtain ⟨k0, w⟩ := e
    by_cases h0 : k0 = buf
    · by_cases hk : buf = k
      · simp [umap_assign, umap_find, h0, hk]
      · simp [umap_assign, umap_find, h0, hk]
    · by_cases hk : buf = k
      · have h1 : ¬ k0 = k := fun h => h0 (h.trans hk.symm)
        subst hk
        simpa [umap_assign, umap_find, h0] using ih
      · simp [umap_assign, umap_find, h0, hk, ih]

theorem umap_find_assign_self (m : umap) (buf : ptr) (v : buf_info) :
    umap_find (umap_assign m buf v) buf = some v := by
  rw [umap_find_assign]; simp

/-! ### `register_resource` -/

theorem register_resource_null (root : String) (acc : accessor_core) (st : thread_state)
    (h : st.scope = none) : source.register_resource root acc st = ("", st) := by
  simp [source.register_resource, h]

theorem register_resource_found (root : String) (acc : accessor_core) (st : thread_state)
    (p : ptr) (info : buf_info) (hs : st.scope = some p)
    (hf : umap_find (st.heap p).resources acc.resource = some info) :
    source.register_resource root acc st = (info.resource_name, st) := by
  simp [source.register_resource, hs, hf]

theorem register_resource_fresh (root : String) (acc : accessor_core) (st : thread_state)
    (p : ptr) (hs : st.scope = some p)
    (hf : umap_find (st.heap p).resources acc.resource = none) :
    source.register_resource root acc st =
      (root ++ to_string (wrap_int (st.num_resources + 1)),
        { st with
          num_resources := wrap_int (st.num_resources + 1)
          heap := Function.update st.heap p
            { st.heap p with
              resources := umap_assign (st.heap p).resources acc.resource
                { acc := { data := acc.resource, mode := acc.mode, target := acc.target }
                  resource_name := root ++ to_string (wrap_int (st.num_resources + 1))
                  type_name := acc.type_string.push '*'
                  size := acc.argument_size } } }) := by
  simp [source.register_resource, hs, hf]

/-- After any call made with an active scope, the buffer of the call is in the registry under
the name the call returned. -/
theorem register_resource_registers (root : String) (acc : accessor_core) (st : thread_state)
    (p : ptr) (hs : st.scope = some p) :
    (source.register_resource root acc st).2.scope = some p ∧
    ∃ info, umap_find (((source.register_resource root acc st).2.heap p).resources)
        acc.resource = some info ∧
      info.resource_name = (source.register_resource root acc st).1 := by
  cases hf : umap_find (st.heap p).resources acc.resource with
  | none =>
    rw [register_resource_fresh root acc st p hs hf]
    refine ⟨hs, ?_⟩
    simp only [Function.update_same]
    exact ⟨_, umap_find_assign_self _ _ _, rfl⟩
  | some info =>
    rw [register_resource_found root acc st p info hs hf]
    exact ⟨hs, info, hf, rfl⟩

/-- C1: with a Builder active, registering the same buffer twice in a row (whatever the modes,
targets, element types and sizes of the two accessors) returns the same resource name both
times, and the second call changes nothing: the state after it is the state before it, so the
number of registry entries and the counter `num_resources` are the same. -/
theorem register_resource_idempotent (root : String) (a1 a2 : accessor_core)
    (st : thread_state) (p : ptr) (hs : st.scope = some p) (hb : a2.resource = a1.resource) :
    (source.register_resource root a2 (source.register_resource root a1 st).2).1 =
      (source.register_resource root a1 st).1 ∧
    (source.register_resource root a2 (source.register_resource root a1 st).2).2 =
      (source.register_resource root a1 st).2 ∧
    umap_size (((source.register_resource root a2
        (source.register_resource root a1 st).2).2.heap p).resources) =
      umap_size (((source.register_resource root a1 st).2.heap p).resources) ∧
    (source.register_resource root a2 (source.register_resource root a1 st).2).2.num_resources =
      (source.register_resource root a1 st).2.num_resources := by
  obtain ⟨hs1, info, hf, hn⟩ := register_resource_registers root a1 st p hs
  rw [← hb] at hf
  rw [register_resource_found root a2 _ p info hs1 hf]
  exact ⟨hn, rfl, rfl, rfl⟩

/-- C1, at a concrete input: a fresh Builder at address 0 is the scope, buffer 7 is registered
for reading and then for writing. -/
theorem register_resource_idempotent_witness :
    (source.register_resource "_sycl_buf"
        ⟨7, access.mode.write, access.target.global_buffer, "float", 8⟩
        (source.register_resource "_sycl_buf"
          ⟨7, access.mode.read, access.target.global_buffer, "int", 8⟩
          ⟨0, some 0, fun _ => source.ctor 0⟩).2).1 =
      (source.register_resource "_sycl_buf"
        ⟨7, access.mode.read, access.target.global_buffer, "int", 8⟩
        ⟨0, some 0, fun _ => source.ctor 0⟩).1 :=
  (register_resource_idempotent "_sycl_buf"
    ⟨7, access.mode.read, access.target.global_buffer, "int", 8⟩
    ⟨7, access.mode.write, access.target.global_buffer, "float", 8⟩
    ⟨0, some 0, fun _ => source.ctor 0⟩ 0 rfl rfl).1

/-- One call of `register_resource` under an active scope, with room for one increment of the
counter, keeps the two naming invariants, keeps the scope, and moves the counter by at most
one. -/
theorem register_resource_step (root : String) (acc : accessor_core) (st : thread_state)
    (p : ptr) (hs : st.scope = some p) (hlo : -2 ^ 31 ≤ st.num_resources)
    (hhi : st.num_resources + 1 < 2 ^ 31)
    (hb : names_bounded root st p) (hd : names_distinct st p) :
    (source.register_resource root acc st).2.scope = some p ∧
    st.num_resources ≤ (source.register_resource root acc st).2.num_resources ∧
    (source.register_resource root acc st).2.num_resources ≤ st.num_resources + 1 ∧
    names_bounded root (source.register_resource root acc st).2 p ∧
    names_distinct (source.register_resource root acc st).2 p := by
  cases hf : umap_find (st.heap p).resources acc.resource with
  | some info =>
    rw [register_resource_found root acc st p info hs hf]
    exact ⟨hs, le_refl _, by simp, hb, hd⟩
  | none =>
    rw [register_resource_fresh root acc st p hs hf]
    have hw : wrap_int (st.num_resources + 1) = st.num_resources + 1 :=
      wrap_int_of_range _ (by omega) hhi
    rw [hw]
    refine ⟨hs, by simp, le_refl _, ?_, ?_⟩
    · intro b info hfind
      simp only [Function.update_same, umap_find_assign] at hfind
      by_cases hbk : acc.resource = b
      · rw [if_pos hbk] at hfind
        refine ⟨st.num_resources + 1, le_refl _, ?_⟩
        rw [← Option.some.inj hfind]
      · rw [if_neg hbk] at hfind
        obtain ⟨n, hn, hname⟩ := hb b info hfind
        exact ⟨n, by simp only; omega, hname⟩
    · intro b1 b2 i1 i2 h1 h2 hne
      simp only [Function.update_same, umap_find_assign] at h1 h2
      by_cases hb1 : acc.resource = b1
      · have hb2 : ¬ acc.resource = b2 := fun h => hne (hb1.symm.trans h)
        rw [if_pos hb1] at h1
        rw [if_neg hb2] at h2
        obtain ⟨n, hn, hname⟩ := hb b2 i2 h2
        rw [← Option.some.inj h1, hname]
        intro heq
        have := name_injective root _ _ heq
        omega
      · rw [if_neg hb1] at h1
        by_cases hb2 : acc.resource = b2
        · rw [if_pos hb2] at h2
          obtain ⟨n, hn, hname⟩ := hb b1 i1 h1
          rw [← Option.some.inj h2, hname]
          intro heq
          have := name_injective root _ _ heq
          omega
        · rw [if_neg hb2] at h2
          exact hd b1 b2 i1 i2 h1 h2 hne

/-- The naming invariants hold after any sequence of `register_resource` calls under one active
scope, as long as the counter has room for one increment per call. -/
theorem run_registers_invariant (root : String) (accs : List accessor_core) :
    ∀ (st : thread_state) (p : ptr), st.scope = some p → -2 ^ 31 ≤ st.num_resources →
      st.num_resources + accs.length < 2 ^ 31 →
      names_bounded root st p → names_distinct st p →
      (run_registers root accs st).scope = some p ∧
      names_bounded root (run_registers root accs st) p ∧
      names_distinct (run_registers root accs st) p := by
  induction accs with
  | nil =>
    intro st p hs _ _ hb hd
    exact ⟨hs, hb, hd⟩
  | cons acc accs ih =>
    intro st p hs hlo hhi hb hd
    simp only [List.length_cons, Nat.cast_add, Nat.cast_one] at hhi
    obtain ⟨hs1, hge, hle, hb1, hd1⟩ :=
      register_resource_step root acc st p hs hlo (by omega) hb hd
    exact ih _ p hs1 (by omega) (by omega) hb1 hd1

/-- C2: start with a Builder at `p` active, its registry empty and the counter at any `int`
value `c0`; perform any sequence of `register_resource` calls that does not take the counter
past `INT_MAX`. In the state reached, two distinct buffers of the registry never have the same
resource name. -/
theorem resource_names_injective (root : String) (accs : List accessor_core) (c0 : Int)
    (heap : ptr → source) (p : ptr) (hempty : (heap p).resources = [])
    (hlo : -2 ^ 31 ≤ c0) (hhi : c0 + accs.length < 2 ^ 31) :
    ∀ b1 b2 i1 i2,
      umap_find ((run_registers root accs ⟨c0, some p, heap⟩).heap p).resources b1 = some i1 →
      umap_find ((run_registers root accs ⟨c0, some p, heap⟩).heap p).resources b2 = some i2 →
      b1 ≠ b2 → i1.resource_name ≠ i2.resource_name := by
  have hb : names_bounded root ⟨c0, some p, heap⟩ p := by
    intro b info hfind
    simp [hempty, umap_find] at hfind
  have hd : names_distinct ⟨c0, some p, heap⟩ p := by
    intro b1 b2 i1 i2 h1
    simp [hempty, umap_find] at h1
  exact (run_registers_invariant root accs ⟨c0, some p, heap⟩ p rfl hlo hhi hb hd).2.2

/-- C2, at a concrete input: buffers 7, 9 and 7 again are registered on a fresh Builder with the
counter at 41; the names of 7 and 9 differ. -/
theorem resource_names_injective_witness :
    (-(2 : Int) ^ 31 ≤ 41 ∧ (41 : Int) + (3 : Nat) < 2 ^ 31) ∧
    names_distinct (run_registers "_sycl_buf"
      [⟨7, access.mode.read, access.target.global_buffer, "int", 8⟩,
       ⟨9, access.mode.write, access.target.global_buffer, "int", 8⟩,
       ⟨7, access.mode.write, access.target.global_buffer, "int", 8⟩]
      ⟨41, some 0, fun _ => source.ctor 0⟩) 0 :=
  ⟨by decide,
    resource_names_injective "_sycl_buf"
      [⟨7, access.mode.read, access.target.global_buffer, "int", 8⟩,
       ⟨9, access.mode.write, access.target.global_buffer, "int", 8⟩,
       ⟨7, access.mode.write, access.target.global_buffer, "int", 8⟩]
      41 (fun _ => source.ctor 0) 0 rfl (by decide) (by decide)⟩

/-- C5: with no Builder active, `register_resource` returns the empty string and the state it
returns is the state it was given: no registry of any `source` object has changed size, the
counter `num_resources` is the same, `scope` is still null and `in_scope()` is false. -/
theorem register_resource_no_scope (root : String) (acc : accessor_core) (st : thread_state)
    (h : st.scope = none) :
    (source.register_resource root acc st).1 = "" ∧
    (source.register_resource root acc st).2 = st ∧
    (∀ q : ptr, umap_size (((source.register_resource root acc st).2.heap q).resources) =
      umap_size ((st.heap q).resources)) ∧
    (source.register_resource root acc st).2.num_resources = st.num_resources ∧
    (source.register_resource root acc st).2.scope = none ∧
    source.in_scope (source.register_resource root acc st).2 = false := by
  rw [register_resource_null root acc st h]
  simp [source.in_scope, h]

/-- C5, at a concrete input: no scope, counter at 3, buffer 7. -/
theorem register_resource_no_scope_witness :
    (source.register_resource "_sycl_buf"
      ⟨7, access.mode.read, access.target.global_buffer, "int", 8⟩
      ⟨3, none, fun _ => source.ctor 0⟩).1 = "" :=
  (register_resource_no_scope "_sycl_buf"
    ⟨7, access.mode.read, access.target.global_buffer, "int", 8⟩
    ⟨3, none, fun _ => source.ctor 0⟩ rfl).1

/-! ### `add`, `add_curlies`, `remove_curlies` -/

/-- C6: with no Builder active, `source::add` and `data_ref::kernel_add` do not complete: they
dereference the null `scope`, for every line and every state of the counter and of the
`source` objects. -/
theorem add_no_scope_faults (auto_end : Bool) (line : String) (n : Int) (heap : ptr → source) :
    source.add auto_end line ⟨n, none, heap⟩ = none ∧
    data_ref.kernel_add line ⟨n, none, heap⟩ = none :=
  ⟨rfl, rfl⟩

theorem add_active (auto_end : Bool) (line : String) (st : thread_state) (p : ptr)
    (hs : st.scope = some p) :
    source.add auto_end line st =
      some { st with
        heap := Function.update st.heap p
          { st.heap p with
            lines := (st.heap p).lines ++
              [((st.heap p).tab_offset ++ line).push (if auto_end then ';' else ' ')] } } := by
  simp [source.add, hs]

/-- C9: with a Builder active, `add(line)` with the default terminator succeeds; the new line
sequence is the old one followed by the single line `tab_offset + line + ";"`, so it is one
longer and every earlier position holds what it held; `tab_offset` is unchanged. -/
theorem add_appends_line (line : String) (st : thread_state) (p : ptr)
    (hs : st.scope = some p) :
    ∃ st2, source.add true line st = some st2 ∧
      (st2.heap p).lines = (st.heap p).lines ++ [(st.heap p).tab_offset ++ line ++ ";"] ∧
      (st2.heap p).lines.length = (st.heap p).lines.length + 1 ∧
      (st2.heap p).lines.getLast? = some ((st.heap p).tab_offset ++ line ++ ";") ∧
      (∀ i, i < (st.heap p).lines.length → (st2.heap p).lines[i]? = (st.heap p).lines[i]?) ∧
      (st2.heap p).tab_offset = (st.heap p).tab_offset := by
  refine ⟨_, add_active true line st p hs, ?_⟩
  have hl : ((st.heap p).tab_offset ++ line).push ';' = (st.heap p).tab_offset ++ line ++ ";" := by
    apply String.ext
    simp [String.data_push, String.data_append]
  simp only [Function.update_same, if_true, hl]
  refine ⟨trivial, by simp, by simp, ?_, trivial⟩
  intro i hi
  exact List.getElem?_append_left hi

/-- C9, at a concrete input: a fresh Builder at address 0 is the scope and `x = 1` is added. -/
theorem add_appends_line_witness :
    ∃ st2, source.add true "x = 1" ⟨0, some 0, fun _ => source.ctor 0⟩ = some st2 ∧
      (st2.heap 0).lines = (source.ctor 0).lines ++ [(source.ctor 0).tab_offset ++ "x = 1" ++ ";"] := by
  obtain ⟨st2, h1, h2, _⟩ :=
    add_appends_line "x = 1" ⟨0, some 0, fun _ => source.ctor 0⟩ 0 rfl
  exact ⟨st2, h1, h2⟩

theorem add_keeps (auto_end : Bool) (line : String) (st : thread_state) (p : ptr)
    (hs : st.scope = some p) :
    ∃ st2, source.add auto_end line st = some st2 ∧ st2.scope = some p ∧
      (st2.heap p).tab_offset = (st.heap p).tab_offset := by
  refine ⟨_, add_active auto_end line st p hs, hs, ?_⟩
  simp only [Function.update_same]

theorem add_curlies_active (st : thread_state) (p : ptr) (hs : st.scope = some p) :
    ∃ st2, source.add_curlies st = some st2 ∧ st2.scope = some p ∧
      (st2.heap p).tab_offset = (st.heap p).tab_offset.push '\t' := by
  obtain ⟨st1, h1, hs1, ht1⟩ := add_keeps false "\x7b" st p hs
  refine ⟨{ st1 with
      heap := Function.update st1.heap p
        { st1.heap p with tab_offset := (st1.heap p).tab_offset.push '\t' } }, ?_, hs1, ?_⟩
  · simp only [source.add_curlies, h1, Option.some_bind, tab_push_back, hs1]
  · simp only [Function.update_same, ht1]

theorem remove_curlies_active (st : thread_state) (p : ptr) (hs : st.scope = some p)
    (hne : (st.heap p).tab_offset.data ≠ []) :
    ∃ st2, source.remove_curlies st = some st2 ∧ st2.scope = some p ∧
      (st2.heap p).tab_offset.data = (st.heap p).tab_offset.data.dropLast := by
  have h1 : tab_pop_back st = some { st with
      heap := Function.update st.heap p
        { st.heap p with tab_offset := ⟨(st.heap p).tab_offset.data.dropLast⟩ } } := by
    simp [tab_pop_back, hs, hne]
  obtain ⟨st2, h2, hs2, ht2⟩ := add_keeps false "\x7d" _ p (show
    ({ st with
      heap := Function.update st.heap p
        { st.heap p with tab_offset := ⟨(st.heap p).tab_offset.data.dropLast⟩ } } :
      thread_state).scope = some p from hs)
  refine ⟨st2, ?_, hs2, ?_⟩
  · simp only [source.remove_curlies, h1, Option.some_bind, h2]
  · rw [ht2]
    simp only [Function.update_same]

/-- Running calls from indentation `t` followed by `d` tabs, when no leading part closes more
than `d` blocks beyond those it opened: every call succeeds and the indentation ends as `t`
followed by `d + opens - closes` tabs. -/
theorem run_ops_depth (ops : List block_op) :
    ∀ (st : thread_state) (p : ptr) (t : List Char) (d : Nat), st.scope = some p →
      (st.heap p).tab_offset.data = t ++ List.replicate d '\t' →
      (∀ n, n ≤ ops.length → closes (ops.take n) ≤ d + opens (ops.take n)) →
      ∃ st2, run_ops ops st = some st2 ∧ st2.scope = some p ∧
        (st2.heap p).tab_offset.data = t ++ List.replicate (d + opens ops - closes ops) '\t' := by
  induction ops with
  | nil =>
    intro st p t d hs ht _
    exact ⟨st, rfl, hs, by simpa [opens, closes] using ht⟩
  | cons op ops ih =>
    intro st p t d hs ht hb
    have hb1 : ∀ n, n ≤ ops.length →
        closes (op :: ops.take n) ≤ d + opens (op :: ops.take n) := by
      intro n hn
      have := hb (n + 1) (by simpa using hn)
      simpa using this
    cases op with
    | add_curlies =>
      obtain ⟨st1, h1, hs1, ht1⟩ := add_curlies_active st p hs
      have ht1d : (st1.heap p).tab_offset.data = t ++ List.replicate (d + 1) '\t' := by
        rw [ht1, String.data_push, ht, List.replicate_succ', List.append_assoc]
      obtain ⟨st2, h2, hs2, ht2⟩ := ih st1 p t (d + 1) hs1 ht1d (by
        intro n hn
        have := hb1 n hn
        simp [opens, closes] at this ⊢
        omega)
      refine ⟨st2, ?_, hs2, ?_⟩
      · simp only [run_ops, block_op.run, h1, Option.some_bind, h2]
      · rw [ht2]
        congr 2
        simp [opens, closes]
        omega
    | remove_curlies =>
      have hd : 1 ≤ d := by
        have := hb1 0 (Nat.zero_le _)
        simpa [opens, closes] using this
      obtain ⟨e, rfl⟩ : ∃ e, d = e + 1 := ⟨d - 1, by omega⟩
      have hne : (st.heap p).tab_offset.data ≠ [] := by
        rw [ht, List.replicate_succ']
        simp
      obtain ⟨st1, h1, hs1, ht1⟩ := remove_curlies_active st p hs hne
      have ht1d : (st1.heap p).tab_offset.data = t ++ List.replicate e '\t' := by
        rw [ht1, ht, List.replicate_succ', ← List.append_assoc, List.dropLast_concat]
      obtain ⟨st2, h2, hs2, ht2⟩ := ih st1 p t e hs1 ht1d (by
        intro n hn
        have := hb1 n hn
        simp [opens, closes] at this ⊢
        omega)
      refine ⟨st2, ?_, hs2, ?_⟩
      · simp only [run_ops, block_op.run, h1, Option.some_bind, h2]
      · rw [ht2]
        congr 2
        simp [opens, closes]
        omega
    | add auto_end line =>
      obtain ⟨st1, h1, hs1, ht1⟩ := add_keeps auto_end line st p hs
      obtain ⟨st2, h2, hs2, ht2⟩ := ih st1 p t d hs1 (by rw [ht1, ht]) (by
        intro n hn
        have := hb1 n hn
        simpa [opens, closes] using this)
      refine ⟨st2, ?_, hs2, ?_⟩
      · simp only [run_ops, block_op.run, h1, Option.some_bind, h2]
      · rw [ht2]
        simp [opens, closes]

/-- C7: with a Builder active, every balanced sequence of `add_curlies`, `remove_curlies` and
`add` calls runs to completion and leaves `tab_offset` exactly as it found it. -/
theorem balanced_restores_tab_offset (ops : List block_op) (st : thread_state) (p : ptr)
    (hs : st.scope = some p) (hb : balanced ops) :
    ∃ st2, run_ops ops st = some st2 ∧ (st2.heap p).tab_offset = (st.heap p).tab_offset := by
  obtain ⟨st2, h2, _, ht2⟩ := run_ops_depth ops st p (st.heap p).tab_offset.data 0 hs
    (by simp) (by
      intro n hn
      have := hb.1 n hn
      omega)
  refine ⟨st2, h2, String.ext ?_⟩
  rw [ht2, hb.2]
  simp

/-- C7, at a concrete input: a block holding one statement and an inner empty block, run on a
fresh Builder. -/
theorem balanced_restores_tab_offset_witness :
    balanced [.add_curlies, .add true "x = 1", .add_curlies, .remove_curlies, .remove_curlies] ∧
    ∃ st2, run_ops
        [.add_curlies, .add true "x = 1", .add_curlies, .remove_curlies, .remove_curlies]
        ⟨0, some 0, fun _ => source.ctor 0⟩ = some st2 ∧
      (st2.heap 0).tab_offset = (source.ctor 0).tab_offset :=
  ⟨by decide, balanced_restores_tab_offset _ ⟨0, some 0, fun _ => source.ctor 0⟩ 0 rfl
    (by decide)⟩

/-! ### `kernel_name::get` -/

theorem run_gets_append {K : Type} [DecidableEq K] (ks : List K) (k : K) :
    ∀ s : kernel_name K, kernel_name.run_gets (ks ++ [k]) s =
      kernel_name.namer_set k (kernel_name.run_gets ks s) := by
  induction ks with
  | nil => intro s; rfl
  | cons a ks ih => intro s; exact ih _

theorem namer_set_unset {K : Type} [DecidableEq K] (T : K) (s : kernel_name K)
    (h : s.is_set T = false) :
    kernel_name.namer_set T s =
      { current_count := (s.current_count + 1) % 2 ^ 64
        id := Function.update s.id T s.current_count
        is_set := Function.update s.is_set T true } := by
  simp [kernel_name.namer_set, h]

theorem namer_set_set {K : Type} [DecidableEq K] (T : K) (s : kernel_name K)
    (h : s.is_set T = true) : kernel_name.namer_set T s = s := by
  simp [kernel_name.namer_set, h]

/-- A key that is set stays set and keeps its identity through a call for any key. -/
theorem namer_set_keeps {K : Type} [DecidableEq K] (T k : K) (s : kernel_name K)
    (h : s.is_set T = true) :
    (kernel_name.namer_set k s).is_set T = true ∧ (kernel_name.namer_set k s).id T = s.id T := by
  cases hk : s.is_set k with
  | true => rw [namer_set_set k s hk]; exact ⟨h, rfl⟩
  | false =>
    have hne : T ≠ k := by
      rintro rfl
      rw [h] at hk
      exact Bool.noConfusion hk
    rw [namer_set_unset k s hk]
    simp [Function.update_noteq hne, h]

theorem run_gets_keeps {K : Type} [DecidableEq K] (T : K) (ks : List K) :
    ∀ s : kernel_name K, s.is_set T = true →
      (kernel_name.run_gets ks s).is_set T = true ∧ (kernel_name.run_gets ks s).id T = s.id T := by
  induction ks with
  | nil => intro s h; exact ⟨h, rfl⟩
  | cons k ks ih =>
    intro s h
    obtain ⟨h1, h2⟩ := namer_set_keeps T k s h
    obtain ⟨h3, h4⟩ := ih (kernel_name.namer_set k s) h1
    exact ⟨h3, h4.trans h2⟩

theorem toFinset_snoc_card {K : Type} [DecidableEq K] (ks : List K) (k : K) :
    (ks ++ [k]).toFinset.card = if k ∈ ks then ks.toFinset.card else ks.toFinset.card + 1 := by
  have h : (ks ++ [k]).toFinset = insert k ks.toFinset := by
    ext x
    simp [or_comm]
  rw [h]
  split_ifs with hk
  · exact Finset.card_insert_of_mem (List.mem_toFinset.mpr hk)
  · exact Finset.card_insert_of_not_mem (fun hm => hk (List.mem_toFinset.mp hm))

/-- The state after requesting the keys `ks` from the initial statics, fewer than `2 ^ 64` of
them distinct: the counter is the number of distinct keys, exactly the requested keys are set,
their identities lie below the counter and are pairwise different. -/
theorem run_gets_invariant {K : Type} [DecidableEq K] (ks : List K) :
    ks.toFinset.card < 2 ^ 64 →
      (kernel_name.run_gets ks (kernel_name.init K)).current_count = ks.toFinset.card ∧
      (∀ k, (kernel_name.run_gets ks (kernel_name.init K)).is_set k = true ↔ k ∈ ks) ∧
      (∀ k, k ∈ ks → (kernel_name.run_gets ks (kernel_name.init K)).id k <
        (kernel_name.run_gets ks (kernel_name.init K)).current_count) ∧
      (∀ j k, j ∈ ks → k ∈ ks →
        (kernel_name.run_gets ks (kernel_name.init K)).id j =
          (kernel_name.run_gets ks (kernel_name.init K)).id k → j = k) := by
  induction ks using List.reverseRecOn with
  | nil =>
    intro _
    simp [kernel_name.run_gets, kernel_name.init]
  | append_singleton ks a ih =>
    intro hcard
    rw [toFinset_snoc_card] at hcard
    rw [run_gets_append, toFinset_snoc_card]
    by_cases ha : a ∈ ks
    · rw [if_pos ha] at hcard ⊢
      obtain ⟨hc, hset, hlt, hinj⟩ := ih hcard
      rw [namer_set_set a _ ((hset a).mpr ha)]
      refine ⟨hc, ?_, ?_, ?_⟩
      · intro k
        rw [hset k]
        simp only [List.mem_append, List.mem_singleton]
        constructor
        · exact Or.inl
        · rintro (h | rfl)
          · exact h
          · exact ha
      · intro k hk
        have hk2 : k ∈ ks := by
          rcases List.mem_append.mp hk with h | h
          · exact h
          · rw [List.mem_singleton.mp h]; exact ha
        exact hlt k hk2
      · intro j k hj hk
        have hj2 : j ∈ ks := by
          rcases List.mem_append.mp hj with h | h
          · exact h
          · rw [List.mem_singleton.mp h]; exact ha
        have hk2 : k ∈ ks := by
          rcases List.mem_append.mp hk with h | h
          · exact h
          · rw [List.mem_singleton.mp h]; exact ha
        exact hinj j k hj2 hk2
    · rw [if_neg ha] at hcard ⊢
      obtain ⟨hc, hset, hlt, hinj⟩ := ih (by omega)
      have hunset : (kernel_name.run_gets ks (kernel_name.init K)).is_set a = false := by
        cases h : (kernel_name.run_gets ks (kernel_name.init K)).is_set a with
        | false => rfl
        | true => exact absurd ((hset a).mp h) ha
      rw [namer_set_unset a _ hunset]
      have hmod : ((kernel_name.run_gets ks (kernel_name.init K)).current_count + 1) % 2 ^ 64 =
          ks.toFinset.card + 1 := by
        rw [hc]
        exact Nat.mod_eq_of_lt hcard
      simp only [hmod]
      have hmem : ∀ k, k ∈ ks ++ [a] → k = a ∨ (k ≠ a ∧ k ∈ ks) := by
        intro k hk
        by_cases hka : k = a
        · exact Or.inl hka
        · rcases List.mem_append.mp hk with h | h
          · exact Or.inr ⟨hka, h⟩
          · exact absurd (List.mem_singleton.mp h) hka
      refine ⟨trivial, ?_, ?_, ?_⟩
      · intro k
        by_cases hka : k = a
        · subst hka
          simp
        · simp [Function.update_noteq hka, hset k, hka]
      · intro k hk
        rcases hmem k hk with rfl | ⟨hka, hk2⟩
        · simp [hc]
        · have := hlt k hk2
          simp only [Function.update_noteq hka]
          omega
      · intro j k hj hk hid
        rcases hmem j hj with rfl | ⟨hja, hj2⟩
        · rcases hmem k hk with rfl | ⟨hka, hk2⟩
          · rfl
          · exfalso
            have := hlt k hk2
            simp only [Function.update_same, Function.update_noteq hka] at hid
            omega
        · rcases hmem k hk with rfl | ⟨hka, hk2⟩
          · exfalso
            have := hlt j hj2
            simp only [Function.update_same, Function.update_noteq hja] at hid
            omega
          · simp only [Function.update_noteq hja, Function.update_noteq hka] at hid
            exact hinj j k hj2 hk2 hid

/-- C3: the counter starts at 0. If `T` has not been requested in the calls `before` (which
together with `T` involve fewer than `2 ^ 64` distinct keys, so the `size_t` counter has not
wrapped), then `get<T>()` returns the current value of the counter and advances the counter by
exactly one; and after any further calls `between`, for whatever keys, `get<T>()` returns that
same value and leaves the counter as it finds it. -/
theorem get_first_then_stable {K : Type} [DecidableEq K] (T : K) (before between : List K)
    (hfirst : T ∉ before) (hroom : before.toFinset.card + 1 < 2 ^ 64) :
    (kernel_name.init K).current_count = 0 ∧
    (kernel_name.get T (kernel_name.run_gets before (kernel_name.init K))).1 =
      (kernel_name.run_gets before (kernel_name.init K)).current_count ∧
    (kernel_name.get T (kernel_name.run_gets before (kernel_name.init K))).2.current_count =
      (kernel_name.run_gets before (kernel_name.init K)).current_count + 1 ∧
    (kernel_name.get T (kernel_name.run_gets between
        (kernel_name.get T (kernel_name.run_gets before (kernel_name.init K))).2)).1 =
      (kernel_name.get T (kernel_name.run_gets before (kernel_name.init K))).1 ∧
    (kernel_name.get T (kernel_name.run_gets between
        (kernel_name.get T (kernel_name.run_gets before (kernel_name.init K))).2)).2.current_count =
      (kernel_name.run_gets between
        (kernel_name.get T (kernel_name.run_gets before (kernel_name.init K))).2).current_count := by
  obtain ⟨hc, hset, _, _⟩ := run_gets_invariant before (by omega)
  have hunset : (kernel_name.run_gets before (kernel_name.init K)).is_set T = false := by
    cases h : (kernel_name.run_gets before (kernel_name.init K)).is_set T with
    | false => rfl
    | true => exact absurd ((hset T).mp h) hfirst
  have hset1 : (kernel_name.namer_set T
      (kernel_name.run_gets before (kernel_name.init K))).is_set T = true := by
    rw [namer_set_unset T _ hunset]
    simp
  obtain ⟨hset2, hid2⟩ := run_gets_keeps T between _ hset1
  simp only [kernel_name.get]
  rw [namer_set_set T _ hset2, hid2, namer_set_unset T _ hunset]
  refine ⟨rfl, by simp, ?_, rfl, rfl⟩
  simp only [hc]
  exact Nat.mod_eq_of_lt hroom

/-- C3, at a concrete input: keys are numbers; 5 is first requested after 3, 4, 3 and requested
again after 6, 5, 7. -/
theorem get_first_then_stable_witness :
    (kernel_name.get 5 (kernel_name.run_gets [3, 4, 3] (kernel_name.init Nat))).1 =
      (kernel_name.run_gets [3, 4, 3] (kernel_name.init Nat)).current_count ∧
    (kernel_name.get 5 (kernel_name.run_gets [6, 5, 7]
        (kernel_name.get 5 (kernel_name.run_gets [3, 4, 3] (kernel_name.init Nat))).2)).1 =
      (kernel_name.get 5 (kernel_name.run_gets [3, 4, 3] (kernel_name.init Nat))).1 :=
  ⟨(get_first_then_stable 5 [3, 4, 3] [6, 5, 7] (by decide) (by decide)).2.1,
    (get_first_then_stable 5 [3, 4, 3] [6, 5, 7] (by decide) (by decide)).2.2.2.1⟩

/-- C4: after any series of `kernel_name::get` calls from the initial statics, for keys `ks` of
which fewer than `2 ^ 64` are distinct (so the `size_t` counter has not wrapped): two different
requested keys hold different identities, every requested key holds an identity strictly below
the counter, and the counter is the number of distinct keys requested. -/
theorem identities_distinct_and_bounded {K : Type} [DecidableEq K] (ks : List K)
    (hroom : ks.toFinset.card < 2 ^ 64) :
    (∀ j k, j ∈ ks → k ∈ ks → j ≠ k →
      (kernel_name.run_gets ks (kernel_name.init K)).id j ≠
        (kernel_name.run_gets ks (kernel_name.init K)).id k) ∧
    (∀ k, k ∈ ks → (kernel_name.run_gets ks (kernel_name.init K)).id k <
      (kernel_name.run_gets ks (kernel_name.init K)).current_count) ∧
    (kernel_name.run_gets ks (kernel_name.init K)).current_count = ks.toFinset.card := by
  obtain ⟨hc, _, hlt, hinj⟩ := run_gets_invariant ks hroom
  exact ⟨fun j k hj hk hne hid => hne (hinj j k hj hk hid), hlt, hc⟩

/-- C4, at a concrete input: the keys 3, 4, 3, 5 are requested; three of them are distinct. -/
theorem identities_distinct_and_bounded_witness :
    ([3, 4, 3, 5] : List Nat).toFinset.card < 2 ^ 64 ∧
    (kernel_name.run_gets [3, 4, 3, 5] (kernel_name.init Nat)).current_count =
      ([3, 4, 3, 5] : List Nat).toFinset.card :=
  ⟨by decide, (identities_distinct_and_bounded [3, 4, 3, 5] (by decide)).2.2⟩

/-! ### `get_kernel_name` -/

/-- The kernel name the constructor stores is `_sycl_kernel_` followed by the decimal text of the
id it reads, whatever indentation, lines and registry the Builder accumulates afterwards; so two
Builders hold the same kernel name exactly when they were constructed with the same id. -/
theorem kernel_name_by_count_id (c1 c2 : Nat) (t1 t2 : String) (l1 l2 : List String)
    (r1 r2 : umap) :
    source.get_kernel_name { source.ctor c1 with tab_offset := t1, lines := l1, resources := r1 }
      = "_sycl_kernel_" ++ to_string c1 ∧
    (source.get_kernel_name
        { source.ctor c1 with tab_offset := t1, lines := l1, resources := r1 } =
      source.get_kernel_name
        { source.ctor c2 with tab_offset := t2, lines := l2, resources := r2 } ↔ c1 = c2) := by
  refine ⟨rfl, ?_, ?_⟩
  · intro h
    have := name_injective "_sycl_kernel_" c1 c2 h
    exact_mod_cast this
  · rintro rfl
    rfl

theorem add_keeps_kernel_name (auto_end : Bool) (line : String) (st st1 : thread_state)
    (h : source.add auto_end line st = some st1) (q : ptr) :
    (st1.heap q).kernel_name = (st.heap q).kernel_name := by
  unfold source.add at h
  cases hs : st.scope with
  | none => simp [hs] at h
  | some p =>
    simp only [hs, Option.some.injEq] at h
    subst h
    by_cases hq : q = p
    · subst hq
      simp
    · simp [Function.update_noteq hq]

theorem block_op_keeps_kernel_name (op : block_op) (st st1 : thread_state)
    (h : op.run st = some st1) (q : ptr) :
    (st1.heap q).kernel_name = (st.heap q).kernel_name := by
  cases op with
  | add auto_end line => exact add_keeps_kernel_name auto_end line st st1 h q
  | add_curlies =>
    simp only [block_op.run, source.add_curlies] at h
    cases h1 : source.add false "\x7b" st with
    | none => simp [h1] at h
    | some st0 =>
      have hk := add_keeps_kernel_name false "\x7b" st st0 h1 q
      simp only [h1, Option.some_bind, tab_push_back] at h
      cases hs : st0.scope with
      | none => simp [hs] at h
      | some p =>
        simp only [hs, Option.some.injEq] at h
        subst h
        rw [← hk]
        by_cases hq : q = p
        · subst hq
          simp
        · simp [Function.update_noteq hq]
  | remove_curlies =>
    simp only [block_op.run, source.remove_curlies] at h
    cases h1 : tab_pop_back st with
    | none => simp [h1] at h
    | some st0 =>
      simp only [h1, Option.some_bind] at h
      have hk := add_keeps_kernel_name false "\x7d" st0 st1 h q
      rw [hk]
      unfold tab_pop_back at h1
      cases hs : st.scope with
      | none => simp [hs] at h1
      | some p =>
        simp only [hs] at h1
        split at h1
        · exact Option.noConfusion h1
        · simp only [Option.some.injEq] at h1
          subst h1
          by_cases hq : q = p
          · subst hq
            simp
          · simp [Function.update_noteq hq]

/-- No sequence of `add_curlies`, `remove_curlies` and `add` calls changes the kernel name of any
`source` object. -/
theorem run_ops_keeps_kernel_name (ops : List block_op) :
    ∀ (st st2 : thread_state), run_ops ops st = some st2 →
      ∀ q : ptr, (st2.heap q).kernel_name = (st.heap q).kernel_name := by
  induction ops with
  | nil =>
    intro st st2 h q
    simp only [run_ops, Option.some.injEq] at h
    rw [h]
  | cons op ops ih =>
    intro st st2 h q
    simp only [run_ops] at h
    cases h1 : op.run st with
    | none => simp [h1] at h
    | some st1 =>
      simp only [h1, Option.some_bind] at h
      rw [ih st1 st2 h q, block_op_keeps_kernel_name op st st1 h1 q]

/-- No call of `register_resource` changes the kernel name of any `source` object. -/
theorem register_resource_keeps_kernel_name (root : String) (acc : accessor_core)
    (st : thread_state) (q : ptr) :
    ((source.register_resource root acc st).2.heap q).kernel_name = (st.heap q).kernel_name := by
  cases hs : st.scope with
  | none => rw [register_resource_null root acc st hs]
  | some p =>
    cases hf : umap_find (st.heap p).resources acc.resource with
    | some info => rw [register_resource_found root acc st p info hs hf]
    | none =>
      rw [register_resource_fresh root acc st p hs hf]
      by_cases hq : q = p
      · subst hq
        simp
      · simp [Function.update_noteq hq]

/-- After a call `get<T>()` on any statics the key `T` is set and holds the identity the call
returned. -/
theorem get_sets {K : Type} [DecidableEq K] (T : K) (s : kernel_name K) :
    (kernel_name.get T s).2.is_set T = true ∧
    (kernel_name.get T s).2.id T = (kernel_name.get T s).1 := by
  cases h : s.is_set T with
  | true => simp [kernel_name.get, namer_set_set T s h, h]
  | false => simp [kernel_name.get, namer_set_unset T s h]

/-- A call `get<T>()` that comes after an earlier `get<T>()`, with calls for any keys in
between, returns what the earlier call returned. -/
theorem get_again {K : Type} [DecidableEq K] (T : K) (s : kernel_name K) (between : List K) :
    (kernel_name.get T (kernel_name.run_gets between (kernel_name.get T s).2)).1 =
      (kernel_name.get T s).1 := by
  obtain ⟨hset, _⟩ := get_sets T s
  obtain ⟨hset2, hid2⟩ := run_gets_keeps T between _ hset
  simp only [kernel_name.get] at hset2 hid2 ⊢
  rw [namer_set_set T _ hset2, hid2]

/-- C8: two Builders constructed for the same kernel shape key `T`, the first on any statics `s`
and the second after any further `get` calls `between`, return the same text from
`get_kernel_name()`, namely `_sycl_kernel_` followed by the decimal text of the identity of `T`,
whatever indentation, statement lines and registry each of them has accumulated (the calls of
the class change no other member of a Builder). -/
theorem kernel_name_same_for_same_shape {K : Type} [DecidableEq K] (T : K)
    (s : kernel_name K) (between : List K) (t1 t2 : String) (l1 l2 : List String)
    (r1 r2 : umap) :
    source.get_kernel_name
        { (source.for_shape T s).1 with tab_offset := t1, lines := l1, resources := r1 } =
      source.get_kernel_name
        { (source.for_shape T (kernel_name.run_gets between (source.for_shape T s).2)).1 with
          tab_offset := t2, lines := l2, resources := r2 } ∧
    source.get_kernel_name
        { (source.for_shape T s).1 with tab_offset := t1, lines := l1, resources := r1 } =
      "_sycl_kernel_" ++ to_string (kernel_name.get T s).1 := by
  refine ⟨?_, rfl⟩
  show "_sycl_kernel_" ++ to_string ((kernel_name.get T s).1 : Nat) =
    "_sycl_kernel_" ++ to_string
      ((kernel_name.get T (kernel_name.run_gets between (kernel_name.get T s).2)).1 : Nat)
  rw [get_again T s between]

/-- Builders constructed for two different shape keys that have both been requested (fewer than
`2 ^ 64` distinct keys in all) return different texts from `get_kernel_name()`. -/
theorem kernel_name_differs_for_other_shape {K : Type} [DecidableEq K] (T1 T2 : K)
    (ks : List K) (hroom : ks.toFinset.card < 2 ^ 64) (h1 : T1 ∈ ks) (h2 : T2 ∈ ks)
    (hne : T1 ≠ T2) :
    source.get_kernel_name
        (source.for_shape T1 (kernel_name.run_gets ks (kernel_name.init K))).1 ≠
      source.get_kernel_name
        (source.for_shape T2 (kernel_name.run_gets ks (kernel_name.init K))).1 := by
  obtain ⟨_, hset, _, hinj⟩ := run_gets_invariant ks hroom
  intro heq
  have hid := (kernel_name_by_count_id _ _ "\t" "\t" [] [] [] []).2.mp heq
  simp only [kernel_name.get, namer_set_set T1 _ ((hset T1).mpr h1),
    namer_set_set T2 _ ((hset T2).mpr h2)] at hid
  exact hne (hinj T1 T2 h1 h2 hid)

/-! ### `buffer_::get_count` -/

/-- For one dimension the sum that `get_count()` forms is the element count. -/
theorem get_count_one_dimension (b : buffer_ 1) (h : b.rang 0 < 2 ^ 64) :
    b.get_count = b.element_count := by
  simp [buffer_.get_count, buffer_.element_count, List.finRange]
  exact h

/-- C10 fails on the code: for a 2-dimensional buffer of range (2, 3) with 4-byte elements
`get_count()` is 5, the sum of the dimensions, where the buffer has 6 elements, and `get_size()`
is 20 where the buffer has 24 bytes. -/
theorem get_count_adds_dimensions :
    (buffer_.mk ![2, 3] 4).get_count = 5 ∧ (buffer_.mk ![2, 3] 4).element_count = 6 ∧
    (buffer_.mk ![2, 3] 4).get_size = 20 := by
  decide

/-! ### `register_resource` on a buffer that is not registered -/

theorem umap_assign_absent (m : umap) (buf : ptr) (v : buf_info)
    (h : umap_find m buf = none) : umap_assign m buf v = m ++ [(buf, v)] := by
  induction m with
  | nil => rfl
  | cons e m ih =>
    obtain ⟨k, w⟩ := e
    by_cases hk : k = buf
    · simp [umap_find, hk] at h
    · simp only [umap_find, hk, if_false] at h
      simp [umap_assign, hk, ih h]

/-- C12: with a Builder at `p` active, buffer `acc.resource` not in its registry and the `int`
counter below `INT_MAX`, `register_resource` returns the root followed by the decimal text of
counter + 1 and sets the counter to counter + 1; the registry becomes the old entries followed by
one entry for the buffer, which holds the buffer, the accessor's mode and target, the returned
name, the element type name followed by `*` and the accessor's argument size; so the registry
is one entry larger, the lookup of every other buffer is as before, and the lines, the
indentation, the kernel name, the scope and every other `source` object are unchanged. -/
theorem register_resource_adds_entry (root : String) (acc : accessor_core) (st : thread_state)
    (p : ptr) (hs : st.scope = some p)
    (hf : umap_find (st.heap p).resources acc.resource = none)
    (hlo : -2 ^ 31 ≤ st.num_resources) (hhi : st.num_resources + 1 < 2 ^ 31) :
    (source.register_resource root acc st).1 = root ++ to_string (st.num_resources + 1) ∧
    (source.register_resource root acc st).2.num_resources = st.num_resources + 1 ∧
    ((source.register_resource root acc st).2.heap p).resources =
      (st.heap p).resources ++
        [(acc.resource,
          { acc := { data := acc.resource, mode := acc.mode, target := acc.target }
            resource_name := root ++ to_string (st.num_resources + 1)
            type_name := acc.type_string ++ "*"
            size := acc.argument_size })] ∧
    umap_size ((source.register_resource root acc st).2.heap p).resources =
      umap_size (st.heap p).resources + 1 ∧
    (∀ k, k ≠ acc.resource →
      umap_find ((source.register_resource root acc st).2.heap p).resources k =
        umap_find (st.heap p).resources k) ∧
    ((source.register_resource root acc st).2.heap p).lines = (st.heap p).lines ∧
    ((source.register_resource root acc st).2.heap p).tab_offset = (st.heap p).tab_offset ∧
    ((source.register_resource root acc st).2.heap p).kernel_name = (st.heap p).kernel_name ∧
    (source.register_resource root acc st).2.scope = st.scope ∧
    (∀ q, q ≠ p → (source.register_resource root acc st).2.heap q = st.heap q) := by
  have hw : wrap_int (st.num_resources + 1) = st.num_resources + 1 :=
    wrap_int_of_range _ (by omega) hhi
  have hstar : acc.type_string.push '*' = acc.type_string ++ "*" := by
    apply String.ext
    simp [String.data_push, String.data_append]
  rw [register_resource_fresh root acc st p hs hf, hw, hstar]
  simp only [Function.update_same]
  refine ⟨trivial, trivial, umap_assign_absent _ _ _ hf, ?_, ?_, trivial, trivial, trivial,
    trivial, ?_⟩
  · rw [umap_assign_absent _ _ _ hf]
    simp [umap_size]
  · intro k hk
    rw [umap_find_assign, if_neg (fun h => hk h.symm)]
  · intro q hq
    exact Function.update_noteq hq _ _

/-- C12, at a concrete input: a fresh Builder at address 0 is the scope, the counter is 41 and
buffer 7 is registered for reading. -/
theorem register_resource_adds_entry_witness :
    (source.register_resource "_sycl_buf"
      ⟨7, access.mode.read, access.target.global_buffer, "int", 8⟩
      ⟨41, some 0, fun _ => source.ctor 0⟩).1 = "_sycl_buf" ++ to_string (41 + 1) ∧
    (source.register_resource "_sycl_buf"
      ⟨7, access.mode.read, access.target.global_buffer, "int", 8⟩
      ⟨41, some 0, fun _ => source.ctor 0⟩).2.num_resources = 41 + 1 :=
  ⟨(register_resource_adds_entry "_sycl_buf"
      ⟨7, access.mode.read, access.target.global_buffer, "int", 8⟩
      ⟨41, some 0, fun _ => source.ctor 0⟩ 0 rfl rfl (by decide) (by decide)).1,
    (register_resource_adds_entry "_sycl_buf"
      ⟨7, access.mode.read, access.target.global_buffer, "int", 8⟩
      ⟨41, some 0, fun _ => source.ctor 0⟩ 0 rfl rfl (by decide) (by decide)).2.1⟩

/-! ### The lines of nested blocks -/

/-- One call under an active scope, from indentation `base` followed by `d` tabs (`d` at least 1
for `remove_curlies`): the call succeeds, keeps the scope, pushes exactly its `emitted` line and
leaves `base` followed by `d + 1`, `d - 1` or `d` tabs. -/
theorem block_op_run_spec (op : block_op) (st : thread_state) (p : ptr) (base : List Char)
    (d : Nat) (hs : st.scope = some p)
    (ht : (st.heap p).tab_offset.data = base ++ List.replicate d '\t')
    (hok : op = block_op.remove_curlies → 1 ≤ d) :
    ∃ st1, op.run st = some st1 ∧ st1.scope = some p ∧
      (st1.heap p).lines = (st.heap p).lines ++ [emitted op (base ++ List.replicate d '\t')] ∧
      (st1.heap p).tab_offset.data =
        base ++ List.replicate (d + opens [op] - closes [op]) '\t' := by
  cases op with
  | add_curlies =>
    simp only [block_op.run, source.add_curlies, source.add, hs, Option.some_bind,
      tab_push_back]
    refine ⟨_, rfl, rfl, ?_, ?_⟩
    · simp [emitted, ← ht]
    · simp only [Function.update_same, String.data_push, ht, opens, closes]
      simp [List.replicate_succ', List.append_assoc]
  | remove_curlies =>
    obtain ⟨e, rfl⟩ : ∃ e, d = e + 1 := ⟨d - 1, by have := hok rfl; omega⟩
    have hne : (st.heap p).tab_offset.data ≠ [] := by
      rw [ht, List.replicate_succ']
      simp
    simp only [block_op.run, source.remove_curlies, tab_pop_back, hs, hne, if_false,
      Option.some_bind, source.add]
    refine ⟨_, rfl, rfl, ?_, ?_⟩
    · simp [emitted, ← ht]
    · simp only [Function.update_same, ht, opens, closes]
      simp [List.replicate_succ', ← List.append_assoc, List.dropLast_concat]
  | add auto_end line =>
    simp only [block_op.run, source.add, hs]
    refine ⟨_, rfl, rfl, ?_, ?_⟩
    · simp [emitted, ← ht]
    · simp only [Function.update_same, ht, opens, closes]
      simp

theorem opens_cons (op : block_op) (ops : List block_op) :
    opens (op :: ops) = opens [op] + opens ops := by
  simp [opens, List.count_cons, Nat.add_comm]

theorem closes_cons (op : block_op) (ops : List block_op) :
    closes (op :: ops) = closes [op] + closes ops := by
  simp [closes, List.count_cons, Nat.add_comm]

/-- Running calls under an active scope from indentation `base` followed by `d` tabs, when no
leading part closes more than `d` blocks beyond those it opened: every call succeeds, the lines
grow by one line per call, and the line of the call at position `m` is its `emitted` line for
`base` followed by `d + opens - closes` tabs, counted over the calls in front of `m`. -/
theorem run_ops_trace (ops : List block_op) :
    ∀ (st : thread_state) (p : ptr) (base : List Char) (d : Nat), st.scope = some p →
      (st.heap p).tab_offset.data = base ++ List.replicate d '\t' →
      (∀ n, n ≤ ops.length → closes (ops.take n) ≤ d + opens (ops.take n)) →
      ∃ st2 new, run_ops ops st = some st2 ∧ st2.scope = some p ∧
        (st2.heap p).tab_offset.data =
          base ++ List.replicate (d + opens ops - closes ops) '\t' ∧
        (st2.heap p).lines = (st.heap p).lines ++ new ∧ new.length = ops.length ∧
        ∀ m op, ops[m]? = some op →
          new[m]? = some (emitted op
            (base ++ List.replicate (d + opens (ops.take m) - closes (ops.take m)) '\t')) := by
  induction ops with
  | nil =>
    intro st p base d hs ht _
    refine ⟨st, [], rfl, hs, by simpa [opens, closes] using ht, by simp, rfl, ?_⟩
    intro m op h
    simp at h
  | cons op0 ops ih =>
    intro st p base d hs ht hb
    have hb1 : ∀ n, n ≤ ops.length →
        closes [op0] + closes (ops.take n) ≤ d + (opens [op0] + opens (ops.take n)) := by
      intro n hn
      have := hb (n + 1) (by simpa using hn)
      rw [List.take_succ_cons, opens_cons, closes_cons] at this
      exact this
    have h0 : closes [op0] ≤ d + opens [op0] := by
      have := hb1 0 (Nat.zero_le _)
      simpa [opens, closes] using this
    have hok : op0 = block_op.remove_curlies → 1 ≤ d := by
      rintro rfl
      simpa [opens, closes] using h0
    obtain ⟨st1, h1, hs1, hl1, ht1⟩ := block_op_run_spec op0 st p base d hs ht hok
    obtain ⟨st2, new1, h2, hs2, ht2, hl2, hn2, hat2⟩ :=
      ih st1 p base (d + opens [op0] - closes [op0]) hs1 ht1 (by
        intro n hn
        have := hb1 n hn
        omega)
    refine ⟨st2, emitted op0 (base ++ List.replicate d '\t') :: new1, ?_, hs2, ?_, ?_, ?_, ?_⟩
    · simp only [run_ops, h1, Option.some_bind, h2]
    · rw [ht2]
      congr 2
      have e1 := opens_cons op0 ops
      have e2 := closes_cons op0 ops
      have := hb1 ops.length (le_refl _)
      rw [List.take_length] at this
      omega
    · rw [hl2, hl1, List.append_assoc]
      rfl
    · simp [hn2]
    · intro m op hm
      cases m with
      | zero =>
        simp only [List.getElem?_cons_zero, Option.some.injEq] at hm
        subst hm
        simp [opens, closes]
      | succ m =>
        simp only [List.getElem?_cons_succ] at hm
        rw [List.getElem?_cons_succ, hat2 m op hm, List.take_succ_cons]
        have hm1 : m ≤ ops.length := by
          by_contra hgt
          rw [List.getElem?_eq_none (by omega)] at hm
          exact Option.noConfusion hm
        have e1 := opens_cons op0 (ops.take m)
        have e2 := closes_cons op0 (ops.take m)
        have := hb1 m hm1
        congr 4
        omega

theorem getElem?_some_lt (ops : List block_op) (m : Nat) (op : block_op)
    (h : ops[m]? = some op) : m < ops.length := by
  by_contra hge
  rw [List.getElem?_eq_none (by omega)] at h
  exact Option.noConfusion h

theorem counts_take_succ (ops : List block_op) (j : Nat) (op : block_op)
    (h : ops[j]? = some op) :
    opens (ops.take (j + 1)) = opens (ops.take j) + opens [op] ∧
    closes (ops.take (j + 1)) = closes (ops.take j) + closes [op] := by
  rw [List.take_succ, h]
  simp [opens, closes, List.count_append]

theorem emitted_add_curlies (k : Nat) :
    emitted block_op.add_curlies (List.replicate k '\t') = tabs k ++ "\x7b " := by
  apply String.ext
  simp [emitted, tabs, String.data_push, String.data_append]

theorem emitted_remove_curlies (k : Nat) :
    emitted block_op.remove_curlies (List.replicate (k + 1) '\t') = tabs k ++ "\x7d " := by
  apply String.ext
  simp [emitted, tabs, String.data_push, String.data_append]

theorem emitted_add (k : Nat) (auto_end : Bool) (line : String) :
    emitted (block_op.add auto_end line) (List.replicate (k + 1) '\t') =
      tabs k ++ "\t" ++ line ++ (if auto_end then ";" else " ") := by
  apply String.ext
  cases auto_end <;>
    simp [emitted, tabs, String.data_push, String.data_append, List.replicate_succ']

theorem balanced_take (ops : List block_op) (hb : balanced ops) (j : Nat) :
    ∀ n, n ≤ (ops.take j).length →
      closes ((ops.take j).take n) ≤ 1 + opens ((ops.take j).take n) := by
  intro n hn
  rw [List.take_take]
  have hle : min n j ≤ ops.length := by
    rw [List.length_take] at hn
    omega
  have := hb.1 (min n j) hle
  omega

/-- C13: start from a freshly constructed Builder at `p` that is the scope and run a balanced
sequence of `add_curlies`, `remove_curlies` and `add` calls. Every call succeeds and pushes one
line. For every matching pair, the line of the `add_curlies` is `k` tabs followed by the opening
brace and the line of the `remove_curlies` is the same `k` tabs followed by the closing brace
(`k` is one more than the depth in front of the pair); the line of every `add` directly between
them is those `k` tabs, one more tab, the text and the terminator. And in front of every
`remove_curlies` the calls so far have succeeded and `tab_offset` is not empty. -/
theorem nested_block_lines (ops : List block_op) (st : thread_state) (p : ptr) (c : Nat)
    (hs : st.scope = some p) (hfresh : st.heap p = source.ctor c) (hb : balanced ops) :
    ∃ st2, run_ops ops st = some st2 ∧ (st2.heap p).lines.length = ops.length ∧
      (∀ i j, matching ops i j →
        (st2.heap p).lines[i]? = some (tabs (1 + depth ops i) ++ "\x7b ") ∧
        (st2.heap p).lines[j]? = some (tabs (1 + depth ops i) ++ "\x7d ") ∧
        ∀ m auto_end line, directly_between ops i j m →
          ops[m]? = some (block_op.add auto_end line) →
          (st2.heap p).lines[m]? =
            some (tabs (1 + depth ops i) ++ "\t" ++ line ++ (if auto_end then ";" else " "))) ∧
      (∀ j, ops[j]? = some block_op.remove_curlies →
        ∃ stj, run_ops (ops.take j) st = some stj ∧ (stj.heap p).tab_offset ≠ "") := by
  have ht : (st.heap p).tab_offset.data = [] ++ List.replicate 1 '\t' := by
    rw [hfresh]
    rfl
  have hl0 : (st.heap p).lines = [] := by
    rw [hfresh]
    rfl
  obtain ⟨st2, new, h2, _, _, hl2, hn2, hat2⟩ := run_ops_trace ops st p [] 1 hs ht (by
    intro n hn
    have := hb.1 n hn
    omega)
  rw [hl0, List.nil_append] at hl2
  refine ⟨st2, h2, by rw [hl2, hn2], ?_, ?_⟩
  · rintro i j ⟨hij, hi, hj, hd, _⟩
    have hjlt := getElem?_some_lt ops j _ hj
    have hbi := hb.1 i (by omega)
    have hbj := hb.1 (j + 1) (by omega)
    obtain ⟨hoj, hcj⟩ := counts_take_succ ops j _ hj
    have ho1 : opens [block_op.remove_curlies] = 0 := rfl
    have hc1 : closes [block_op.remove_curlies] = 1 := rfl
    unfold depth at hd
    refine ⟨?_, ?_, ?_⟩
    · rw [hl2, hat2 i _ hi, List.nil_append]
      have hk : 1 + opens (ops.take i) - closes (ops.take i) = 1 + depth ops i := by
        unfold depth
        omega
      rw [hk, emitted_add_curlies]
    · rw [hl2, hat2 j _ hj, List.nil_append]
      have hk : 1 + opens (ops.take j) - closes (ops.take j) = (1 + depth ops i) + 1 := by
        unfold depth
        omega
      rw [hk, emitted_remove_curlies]
    · rintro m auto_end line ⟨_, hmj, hdm⟩ hm
      have hbm := hb.1 m (by omega)
      rw [hl2, hat2 m _ hm, List.nil_append]
      have hk : 1 + opens (ops.take m) - closes (ops.take m) = (1 + depth ops i) + 1 := by
        unfold depth at hdm ⊢
        omega
      rw [hk, emitted_add]
  · intro j hj
    have hjlt := getElem?_some_lt ops j _ hj
    obtain ⟨stj, _, hj2, _, htj, _⟩ :=
      run_ops_trace (ops.take j) st p [] 1 hs ht (balanced_take ops hb j)
    refine ⟨stj, hj2, ?_⟩
    intro hempty
    rw [hempty] at htj
    have hlen := congrArg List.length htj
    have hbj := hb.1 j (by omega)
    simp at hlen
    omega

/-- C13, at a concrete input: on a fresh Builder at address 0, a block holding one statement and
an inner empty block; the outer pair is at positions 0 and 4, the statement at position 1. -/
theorem nested_block_lines_witness :
    balanced [.add_curlies, .add true "x = 1", .add_curlies, .remove_curlies, .remove_curlies] ∧
    matching [.add_curlies, .add true "x = 1", .add_curlies, .remove_curlies, .remove_curlies]
      0 4 ∧
    directly_between
      [.add_curlies, .add true "x = 1", .add_curlies, .remove_curlies, .remove_curlies] 0 4 1 ∧
    ∃ st2, run_ops
        [.add_curlies, .add true "x = 1", .add_curlies, .remove_curlies, .remove_curlies]
        ⟨0, some 0, fun _ => source.ctor 0⟩ = some st2 ∧
      (st2.heap 0).lines[0]? = some "\t\x7b " ∧ (st2.heap 0).lines[4]? = some "\t\x7d " ∧
      (st2.heap 0).lines[1]? = some "\t\tx = 1;" := by
  obtain ⟨st2, h2, _, hm, _⟩ := nested_block_lines
    [.add_curlies, .add true "x = 1", .add_curlies, .remove_curlies, .remove_curlies]
    ⟨0, some 0, fun _ => source.ctor 0⟩ 0 0 rfl rfl (by decide)
  obtain ⟨h0, h4, h1⟩ := hm 0 4 (by decide)
  exact ⟨by decide, by decide, by decide, st2, h2, h0, h4, h1 1 true "x = 1" (by decide) rfl⟩

/-! ### Callers of `kernel_name::get` that overlap -/

theorem run_schedule_append {K : Type} [DecidableEq K] (T : K) (a b : List Nat) :
    ∀ sys : get_system K, run_schedule T (a ++ b) sys = run_schedule T b (run_schedule T a sys) := by
  induction a with
  | nil => intro sys; rfl
  | cons i a ih => intro sys; exact ih _

/-- A caller that makes its six steps with no other caller stepping in between does what the
function `kernel_name::get` does: it ends returned with the identity `get` returns, and the
statics end as `get` leaves them. -/
theorem solo_call {K : Type} [DecidableEq K] (T : K) (s : kernel_name K)
    (callers : List get_pc) (i : Nat) (hi : callers[i]? = some get_pc.test_is_set) :
    run_schedule T (List.replicate 6 i) ⟨s, callers⟩ =
      ⟨(kernel_name.get T s).2, callers.set i (get_pc.returned (kernel_name.get T s).1)⟩ := by
  have hlt : i < callers.length := by
    by_contra hge
    rw [List.getElem?_eq_none (by omega)] at hi
    exact Option.noConfusion hi
  cases hset : s.is_set T with
  | true =>
    simp [List.replicate, run_schedule, system_step, get_step, hi, hset, hlt,
      kernel_name.get, kernel_name.namer_set]
  | false =>
    simp [List.replicate, run_schedule, system_step, get_step, hi, hset, hlt,
      kernel_name.get, kernel_name.namer_set]

theorem settled_get_step {K : Type} [DecidableEq K] (T : K) (v : Nat) (pc : get_pc)
    (s : kernel_name K) (hset : s.is_set T = true) (hid : s.id T = v)
    (hpc : pc = get_pc.test_is_set ∨ pc = get_pc.read_id ∨ pc = get_pc.returned v) :
    (get_step T pc s).2 = s ∧
    (pc = get_pc.test_is_set → (get_step T pc s).1 = get_pc.read_id) ∧
    (pc ≠ get_pc.test_is_set → (get_step T pc s).1 = get_pc.returned v) := by
  rcases hpc with rfl | rfl | rfl
  · simp [get_step, hset]
  · simp [get_step, hid]
  · simp [get_step]

/-- Once the identity is settled, a step of any caller leaves the statics as they are and the
identity settled. -/
theorem settled_step {K : Type} [DecidableEq K] (T : K) (v : Nat) (i : Nat)
    (sys : get_system K) (h : settled T v sys) :
    (system_step T i sys).shared = sys.shared ∧ settled T v (system_step T i sys) := by
  obtain ⟨hset, hid, hall⟩ := h
  unfold system_step
  cases hi : sys.callers[i]? with
  | none => exact ⟨rfl, hset, hid, hall⟩
  | some pc =>
    obtain ⟨h2, h1a, h1b⟩ :=
      settled_get_step T v pc sys.shared hset hid (hall pc (List.getElem?_mem hi))
    simp only [h2]
    refine ⟨trivial, hset, hid, ?_⟩
    intro pc2 hpc2
    rcases List.mem_or_eq_of_mem_set hpc2 with hmem | rfl
    · exact hall pc2 hmem
    · by_cases ht : pc = get_pc.test_is_set
      · exact Or.inr (Or.inl (h1a ht))
      · exact Or.inr (Or.inr (h1b ht))

theorem settled_run {K : Type} [DecidableEq K] (T : K) (v : Nat) (sched : List Nat) :
    ∀ sys : get_system K, settled T v sys →
      (run_schedule T sched sys).shared = sys.shared ∧ settled T v (run_schedule T sched sys) := by
  induction sched with
  | nil => intro sys h; exact ⟨rfl, h⟩
  | cons i sched ih =>
    intro sys h
    obtain ⟨h1, h2⟩ := settled_step T v i sys h
    obtain ⟨h3, h4⟩ := ih _ h2
    exact ⟨h3.trans h1, h4⟩

/-- Once the identity is settled, a caller that steps often enough in the interleaving (twice
from the test, once from the final read) ends returned with the identity. -/
theorem settled_finishes {K : Type} [DecidableEq K] (T : K) (v : Nat) (i : Nat)
    (sched : List Nat) :
    ∀ (sys : get_system K) (pc : get_pc), settled T v sys → sys.callers[i]? = some pc →
      (pc = get_pc.test_is_set → 2 ≤ sched.count i) →
      (pc = get_pc.read_id → 1 ≤ sched.count i) →
      (run_schedule T sched sys).callers[i]? = some (get_pc.returned v) := by
  induction sched with
  | nil =>
    intro sys pc h hi h2 h1
    rcases h.2.2 pc (List.getElem?_mem hi) with rfl | rfl | rfl
    · have := h2 rfl
      simp at this
    · have := h1 rfl
      simp at this
    · exact hi
  | cons j sched ih =>
    intro sys pc h hi h2 h1
    obtain ⟨_, hsettled⟩ := settled_step T v j sys h
    by_cases hji : j = i
    · subst hji
      have hlt : j < sys.callers.length := by
        by_contra hge
        rw [List.getElem?_eq_none (by omega)] at hi
        exact Option.noConfusion hi
      obtain ⟨_, h1a, h1b⟩ := settled_get_step T v pc sys.shared h.1 h.2.1
        (h.2.2 pc (List.getElem?_mem hi))
      have hnew : (system_step T j sys).callers[j]? = some (get_step T pc sys.shared).1 := by
        simp [system_step, hi, hlt]
      refine ih _ _ hsettled hnew ?_ ?_
      · intro hpc
        exfalso
        by_cases ht : pc = get_pc.test_is_set
        · rw [h1a ht] at hpc
          exact get_pc.noConfusion hpc
        · rw [h1b ht] at hpc
          exact get_pc.noConfusion hpc
      · intro hpc
        by_cases ht : pc = get_pc.test_is_set
        · have := h2 ht
          simp only [List.count_cons_self] at this
          omega
        · rw [h1b ht] at hpc
          exact get_pc.noConfusion hpc
    · have hkeep : (system_step T j sys).callers[i]? = some pc := by
        unfold system_step
        cases hj : sys.callers[j]? with
        | none => exact hi
        | some pcj =>
          simp only [List.getElem?_set_ne hji]
          exact hi
      have hcount : (j :: sched).count i = sched.count i :=
        List.count_cons_of_ne (fun h => hji h.symm) _
      rw [hcount] at h2 h1
      exact ih _ pc hsettled hkeep h2 h1

/-- C11, as stated, fails: two callers request the key 0 from the initial statics. Caller 0
tests `is_set`, then caller 1 tests `is_set`, then caller 0 makes its other five steps and
caller 1 its other five. Caller 0 returns 0, caller 1 returns 1, and the counter has advanced
by 2. -/
theorem overlapping_gets_disagree :
    (run_schedule (0 : Nat) [0, 1, 0, 0, 0, 0, 0, 1, 1, 1, 1, 1]
      ⟨kernel_name.init Nat, [get_pc.test_is_set, get_pc.test_is_set]⟩).callers =
        [get_pc.returned 0, get_pc.returned 1] ∧
    (run_schedule (0 : Nat) [0, 1, 0, 0, 0, 0, 0, 1, 1, 1, 1, 1]
      ⟨kernel_name.init Nat, [get_pc.test_is_set, get_pc.test_is_set]⟩).shared.current_count =
        (kernel_name.init Nat).current_count + 2 := by
  decide

/-- C11, amended: `T` is not set, the `size_t` counter has room for one increment, and of
`n + 1` callers of `get<T>()` caller 0 completes its call before the others start. Then for
every interleaving `sched` of the callers' steps the counter ends exactly one above its first
value, no caller returns anything but the first value of the counter, and every caller that
steps at least twice in `sched` has returned it. -/
theorem get_after_completed_call {K : Type} [DecidableEq K] (T : K) (s : kernel_name K)
    (n : Nat) (sched : List Nat) (hunset : s.is_set T = false)
    (hroom : s.current_count + 1 < 2 ^ 64) :
    (after_first_call T s n sched).shared.current_count = s.current_count + 1 ∧
    (∀ (i r : Nat), (after_first_call T s n sched).callers[i]? = some (get_pc.returned r) →
      r = s.current_count) ∧
    (∀ i, i < n + 1 → 2 ≤ sched.count i →
      (after_first_call T s n sched).callers[i]? = some (get_pc.returned s.current_count)) := by
  have hget1 : (kernel_name.get T s).1 = s.current_count := by
    simp [kernel_name.get, namer_set_unset T s hunset]
  have hget2 : (kernel_name.get T s).2 =
      { current_count := (s.current_count + 1) % 2 ^ 64
        id := Function.update s.id T s.current_count
        is_set := Function.update s.is_set T true } := by
    simp [kernel_name.get, namer_set_unset T s hunset]
  have hfirst := solo_call T s (List.replicate (n + 1) get_pc.test_is_set) 0 (by simp)
  rw [hget1, hget2] at hfirst
  have hsettled : settled T s.current_count
      (run_schedule T (List.replicate 6 0)
        ⟨s, List.replicate (n + 1) get_pc.test_is_set⟩) := by
    rw [hfirst]
    refine ⟨by simp, by simp, ?_⟩
    intro pc hpc
    rcases List.mem_or_eq_of_mem_set hpc with hmem | rfl
    · exact Or.inl (List.eq_of_mem_replicate hmem)
    · exact Or.inr (Or.inr rfl)
  obtain ⟨hshared, hfinal⟩ := settled_run T s.current_count sched _ hsettled
  unfold after_first_call
  refine ⟨?_, ?_, ?_⟩
  · rw [hshared, hfirst]
    exact Nat.mod_eq_of_lt hroom
  · intro i r hr
    rcases hfinal.2.2 _ (List.getElem?_mem hr) with h | h | h
    · exact get_pc.noConfusion h
    · exact get_pc.noConfusion h
    · exact get_pc.returned.inj h
  · intro i hi hcount
    cases i with
    | zero =>
      refine settled_finishes T s.current_count 0 sched _ (get_pc.returned s.current_count)
        hsettled ?_ ?_ ?_
      · rw [hfirst]
        simp
      · intro h
        exact get_pc.noConfusion h
      · intro h
        exact get_pc.noConfusion h
    | succ i =>
      refine settled_finishes T s.current_count (i + 1) sched _ get_pc.test_is_set
        hsettled ?_ ?_ ?_
      · rw [hfirst]
        have hi2 : i < n := by omega
        simp [hi2]
      · intro _
        exact hcount
      · intro h
        exact get_pc.noConfusion h

/-- C11 amended, at a concrete input: three callers request the key 0 from the initial statics;
after caller 0 has completed, callers 1 and 2 step alternately. -/
theorem get_after_completed_call_witness :
    (after_first_call (0 : Nat) (kernel_name.init Nat) 2 [1, 2, 1, 2]).shared.current_count =
      (kernel_name.init Nat).current_count + 1 ∧
    (after_first_call (0 : Nat) (kernel_name.init Nat) 2 [1, 2, 1, 2]).callers[2]? =
      some (get_pc.returned (kernel_name.init Nat).current_count) :=
  ⟨(get_after_completed_call (0 : Nat) (kernel_name.init Nat) 2 [1, 2, 1, 2] rfl
      (by decide)).1,
    (get_after_completed_call (0 : Nat) (kernel_name.init Nat) 2 [1, 2, 1, 2] rfl
      (by decide)).2.2 2 (by decide) (by decide)⟩

end sycl_gtx
